import Mathlib

/-!
Verification of the download-video backend (src/app.py) against its
natural-language specification.

The Python source is shallowly embedded: strings are `List Char`
(wrapped into `String` at the API boundary), byte counts are `ℕ`,
rates and percentages are `ℚ` (an idealisation of CPython floats; the
only float operation used by the code on these values is `round(x, 1)`,
modelled by `round1` below), and Python dictionaries are association
lists with CPython's update-in-place / append-if-new semantics.
-/

/-- Python truthiness fallback on an optional natural:
`x or alt` where `x : Option ℕ` — `None` and `0` are falsy. -/
def pyOrNat (o : Option ℕ) (alt : ℕ) : ℕ :=
  match o with
  | none => alt
  | some v => if v = 0 then alt else v

/-- Python truthiness fallback on an optional rational:
`x or alt` where `x : Option ℚ` — `None` and `0` are falsy. -/
def pyOrQ (o : Option ℚ) (alt : ℚ) : ℚ :=
  match o with
  | none => alt
  | some v => if v = 0 then alt else v

/-- Python's `round(x, 1)`, idealised over `ℚ`: round `10*x` to the
nearest integer and divide by `10`.  (CPython rounds ties to even on
binary floats; no claim in this development depends on tie behaviour.) -/
def round1 (x : ℚ) : ℚ := (round (10 * x) : ℤ) / 10

/-- Test whether the pattern `pat` is an initial segment of `l`. -/
def matchesAt : List Char → List Char → Bool
  | [], _ => true
  | _ :: _, [] => false
  | p :: ps, c :: cs => p == c && matchesAt ps cs

/-- Python's `pat in s` substring test: some position of `s` starts with `pat`. -/
def occursIn (pat : List Char) : List Char → Bool
  | [] => matchesAt pat []
  | c :: rest => matchesAt pat (c :: rest) || occursIn pat rest

/-- Characters Windows forbids in filenames, plus control characters 0–31:
the regex class from line 51 of app.py. -/
def isInvalidChar (c : Char) : Bool :=
  c == '<' || c == '>' || c == ':' || c == '"' || c == '/' || c == '\\' ||
  c == '|' || c == '?' || c == '*' || c.toNat ≤ 31

/-- Python (unicode) whitespace: the characters matched by the regex class
backslash-s and stripped by str.strip / str.rstrip. -/
def isPySpace (c : Char) : Bool :=
  let n := c.toNat
  (9 ≤ n && n ≤ 13) || n == 32 || (28 ≤ n && n ≤ 31) || n == 0x85 ||
  n == 0xA0 || n == 0x1680 || (0x2000 ≤ n && n ≤ 0x200A) || n == 0x2028 ||
  n == 0x2029 || n == 0x202F || n == 0x205F || n == 0x3000

/-- Line 52: substitute each invalid character by an underscore. -/
def replInvalid (l : List Char) : List Char :=
  l.map (fun c => if isInvalidChar c then '_' else c)

/-- Worker for whitespace-run collapsing; the flag records whether the
previous character was whitespace (so the run's single space is already
emitted). -/
def collapseAux : Bool → List Char → List Char
  | _, [] => []
  | b, c :: rest =>
    if isPySpace c then
      if b then collapseAux true rest else ' ' :: collapseAux true rest
    else c :: collapseAux false rest

/-- The substitution of every maximal whitespace run by one space
(line 55's re.sub). -/
def collapseWs (l : List Char) : List Char := collapseAux false l

/-- str.rstrip(): drop trailing whitespace. -/
def rstripWs (l : List Char) : List Char :=
  (l.reverse.dropWhile isPySpace).reverse

/-- str.strip(): drop leading and trailing whitespace. -/
def stripWs (l : List Char) : List Char :=
  rstripWs (l.dropWhile isPySpace)

/-- Line 58's rstrip('. '): drop trailing periods and spaces. -/
def rstripDots (l : List Char) : List Char :=
  (l.reverse.dropWhile (fun c => c == '.' || c == ' ')).reverse

/-- Line 62–64: truncate to 200 characters and re-trim trailing whitespace. -/
def truncate200 (l : List Char) : List Char :=
  if 200 < l.length then rstripWs (l.take 200) else l

/-- The fallback filename. -/
def videoL : List Char := ['v', 'i', 'd', 'e', 'o']

/-- The sanitize_filename function of app.py lines 41–70, over `List Char`. -/
def sanitizeL (s : List Char) : List Char :=
  if s = [] then videoL
  else
    let t := truncate200 (rstripDots (stripWs (collapseWs (replInvalid s))))
    if t = [] then videoL else t

/-- The sanitize_filename function at the `String` boundary. -/
def sanitize_filename (s : String) : String := ⟨sanitizeL s.data⟩

/-- No character of `l` is in the replaced class. -/
def noInv (l : List Char) : Prop := ∀ c ∈ l, isInvalidChar c = false

/-- Every whitespace character of `l` is the plain space. -/
def spacesNorm (l : List Char) : Prop := ∀ c ∈ l, isPySpace c = true → c = ' '

/-- No two adjacent characters of `l` are both plain spaces. -/
def noAdjSpace (l : List Char) : Prop :=
  List.Chain' (fun a b => ¬(a = ' ' ∧ b = ' ')) l

/-- The first character of `l`, if any, is not whitespace. -/
def headNoSpace (l : List Char) : Prop :=
  ∀ c, l.head? = some c → isPySpace c = false

/-- The last character of `l`, if any, is not whitespace. -/
def lastNoSpace (l : List Char) : Prop :=
  ∀ c, l.getLast? = some c → isPySpace c = false

/-- The structural facts that hold of every `sanitizeL` output. -/
def cleanT (t : List Char) : Prop :=
  noInv t ∧ spacesNorm t ∧ noAdjSpace t ∧ headNoSpace t ∧ lastNoSpace t ∧
  t.length ≤ 200

/-- Python's str.replace: replace every (leftmost, non-overlapping)
occurrence of `pat` by `rep`. -/
def replaceAll (pat rep : List Char) : List Char → List Char
  | [] => []
  | c :: rest =>
    if matchesAt pat (c :: rest) then
      rep ++ replaceAll pat rep (rest.drop (pat.length - 1))
    else c :: replaceAll pat rep rest
termination_by l => l.length
decreasing_by
  · simp only [List.length_drop, List.length_cons]; omega
  · simp only [List.length_cons]; omega

/-- The yt-dlp extension placeholder. -/
def extPat : List Char := ("%(ext)s" : String).data

/-- The yt-dlp height placeholder. -/
def heightPat : List Char := ("%(height)s" : String).data

/-- Representative worst-case substitution for the extension (line 292). -/
def reprExt : List Char := ("mp4" : String).data

/-- Representative worst-case substitution for the height (line 292). -/
def reprHeight : List Char := ("1080" : String).data

/-- Template tail for video downloads (line 266/289). -/
def vidTail : List Char := ("_%(height)sp.%(ext)s" : String).data

/-- Template tail for audio-only downloads (line 252/287). -/
def audTail : List Char := (".%(ext)s" : String).data

/-- os.path.join's separator (DOWNLOAD_DIR never ends in a separator). -/
def sepL : List Char := ['/']

/-- Line 281–283: cap the sanitized title at 150 characters. -/
def cap150 (t : List Char) : List Char :=
  if 150 < t.length then rstripWs (t.take 150) else t

/-- Lines 286–289 / 297–300: the outtmpl for a given title. -/
def mkTmpl (dir t : List Char) (audioOnly : Bool) : List Char :=
  if audioOnly then dir ++ sepL ++ t ++ audTail else dir ++ sepL ++ t ++ vidTail

/-- Line 292: the test path with representative placeholder substitution. -/
def substRepr (l : List Char) : List Char :=
  replaceAll heightPat reprHeight (replaceAll extPat reprExt l)

/-- Lines 295–296: the shortened title for the second pass,
`title[:remaining].rstrip()` with `remaining = 250 - len(dir) - 20`,
falling back to "video" when the budget is non-positive. -/
def shortTitle (dir t1 : List Char) : List Char :=
  let remaining : ℤ := 250 - (dir.length : ℤ) - 20
  if 0 < remaining then rstripWs (t1.take remaining.toNat) else videoL

/-- app.py lines 275–300: the output template handed to the provider, after
sanitizing the title, capping it at 150, and applying the secondary
shortening pass when the representative test path exceeds 250 characters. -/
def finalOutTmpl (dir rawTitle : List Char) (audioOnly : Bool) : List Char :=
  let t1 := cap150 (sanitizeL rawTitle)
  if 250 < (substRepr (mkTmpl dir t1 audioOnly)).length then
    mkTmpl dir (shortTitle dir t1) audioOnly
  else mkTmpl dir t1 audioOnly

/-- A raw stream descriptor as delivered by the extraction provider: the
fields of the yt-dlp format dict that get_video_info reads.  `none` models a
missing key (or a None value, which `.get` treats identically here). -/
structure RawFormat where
  vcodec : Option String
  acodec : Option String
  height : Option ℕ
  format_id : Option String
  ext : Option String
  filesize : Option ℕ
  filesize_approx : Option ℕ
  vbr : Option ℚ
  tbr : Option ℚ
deriving DecidableEq

/-- Lines 133–138: drop descriptors with no video codec and descriptors with
a falsy (absent or zero) height. -/
def keptFormat (f : RawFormat) : Bool :=
  !(f.vcodec == some "none") && !(f.height.getD 0 == 0)

/-- The height a kept descriptor is grouped under. -/
def heightOf (f : RawFormat) : ℕ := f.height.getD 0

/-- Line 142: filesize or filesize_approx (default 0), with Python truthiness. -/
def filesizeOf (f : RawFormat) : ℕ := pyOrNat f.filesize (f.filesize_approx.getD 0)

/-- Line 143: vbr or tbr or 0, with Python truthiness. -/
def vbrOf (f : RawFormat) : ℚ := pyOrQ f.vbr (pyOrQ f.tbr 0)

/-- Three-step unit scaling loop of format_size (lines 391–397). -/
def formatSizeAux : ℚ → List String → ℚ × String
  | size, [] => (size, "B")
  | size, [u] => (size, u)
  | size, u :: u' :: us =>
    if 1024 ≤ size then formatSizeAux (size / 1024) (u' :: us) else (size, u)

/-- Python's f-string one-decimal rendering of a non-negative quantity,
idealised over `ℚ` (CPython rounds the binary float with ties to even; no
claim depends on tie behaviour). -/
def fmt1dec (x : ℚ) : String :=
  let n := (round (10 * x)).toNat
  toString (n / 10) ++ "." ++ toString (n % 10)

/-- The format_size function of app.py lines 386–399. -/
def format_size (bytes_size : ℕ) : String :=
  if bytes_size = 0 then "0 B"
  else
    let p := formatSizeAux (bytes_size : ℚ) ["B", "KB", "MB", "GB"]
    fmt1dec p.1 ++ " " ++ p.2

/-- The per-height dict value built at lines 147–156 / 161–170 (including the
internal vbr key removed before the response). -/
structure FormatEntry where
  format_id : Option String
  quality : String
  height : ℕ
  ext : String
  filesize : ℕ
  filesize_str : String
  has_audio : Bool
  vbr : ℚ
deriving DecidableEq

/-- The dict literal of lines 147–156, for a kept descriptor. -/
def entryOf (f : RawFormat) : FormatEntry where
  format_id := f.format_id
  quality := toString (heightOf f) ++ "p"
  height := heightOf f
  ext := f.ext.getD "mp4"
  filesize := filesizeOf f
  filesize_str :=
    if filesizeOf f = 0 then "Tamanho desconhecido" else format_size (filesizeOf f)
  has_audio := !(f.acodec == some "none")
  vbr := vbrOf f

/-- Line 160's replacement test: the new descriptor's (vbr, filesize) beats
the stored entry's. -/
def beats (e old : FormatEntry) : Bool :=
  (old.vbr < e.vbr) || (old.filesize < e.filesize && old.vbr ≤ e.vbr)

/-- First-match association lookup (Python dict `height in formats_by_height` /
`formats_by_height[height]`). -/
def lookupH : List (ℕ × FormatEntry) → ℕ → Option FormatEntry
  | [], _ => none
  | p :: rest, h => if p.1 = h then some p.2 else lookupH rest h

/-- Python dict assignment to an existing key: replace in place. -/
def writeAt (m : List (ℕ × FormatEntry)) (h : ℕ) (e : FormatEntry) :
    List (ℕ × FormatEntry) :=
  m.map (fun p => if p.1 = h then (h, e) else p)

/-- One iteration of the grouping loop (lines 131–170). -/
def insertFmt (m : List (ℕ × FormatEntry)) (f : RawFormat) :
    List (ℕ × FormatEntry) :=
  if keptFormat f then
    match lookupH m (heightOf f) with
    | none => m ++ [(heightOf f, entryOf f)]
    | some old => if beats (entryOf f) old then writeAt m (heightOf f) (entryOf f) else m
  else m

/-- The formats_by_height dict after the whole loop. -/
def formats_by_height (ds : List RawFormat) : List (ℕ × FormatEntry) :=
  ds.foldl insertFmt []

/-- Stable insertion for the descending-by-height sort of line 174. -/
def insertDesc (x : FormatEntry) : List FormatEntry → List FormatEntry
  | [] => [x]
  | y :: ys => if y.height ≤ x.height then x :: y :: ys else y :: insertDesc x ys

/-- list.sort(key=height, reverse=True): stable descending sort. -/
def sortByHeightDesc : List FormatEntry → List FormatEntry
  | [] => []
  | x :: xs => insertDesc x (sortByHeightDesc xs)

/-- A quality tier of the /api/info response.  The Python dict for a video
tier omits the audio_only key (treated as false by every consumer); the
synthetic audio tier sets it to true. -/
structure QualityTier where
  format_id : Option String
  quality : String
  height : ℕ
  ext : String
  filesize : ℕ
  filesize_str : String
  has_audio : Bool
  audio_only : Bool
deriving DecidableEq

/-- Line 184: the response dict without the internal vbr key. -/
def stripVbr (e : FormatEntry) : QualityTier where
  format_id := e.format_id
  quality := e.quality
  height := e.height
  ext := e.ext
  filesize := e.filesize
  filesize_str := e.filesize_str
  has_audio := e.has_audio
  audio_only := false

/-- Lines 189–198: the synthetic audio-only tier. -/
def audioTier : QualityTier where
  format_id := some "bestaudio"
  quality := "Apenas Áudio"
  height := 0
  ext := "mp3"
  filesize := 0
  filesize_str := "MP3"
  has_audio := true
  audio_only := true

/-- Line 178. -/
def target_heights : List ℕ := [2160, 1440, 1080, 720, 480, 360, 240]

/-- The format processing of get_video_info, lines 129–198: group by height,
sort descending, select one tier per target height, append the audio tier. -/
def rank (ds : List RawFormat) : List QualityTier :=
  let formats := sortByHeightDesc ((formats_by_height ds).map Prod.snd)
  let finals := target_heights.filterMap (fun t =>
    (formats.find? (fun f => f.height == t)).map stripVbr)
  finals ++ [audioTier]

/-- Strict lexicographic order on the (vbr, filesize) selection key. -/
def keyLt (a b : FormatEntry) : Prop :=
  a.vbr < b.vbr ∨ (a.vbr = b.vbr ∧ a.filesize < b.filesize)

/-- Key domination: `b` has strictly larger vbr, or the
same vbr and at least as large a file size. -/
def keyLe (a b : FormatEntry) : Prop :=
  a.vbr < b.vbr ∨ (a.vbr = b.vbr ∧ a.filesize ≤ b.filesize)

/-- The grouping-loop invariant: every stored entry comes from a kept
processed descriptor of its height whose selection key dominates all kept
processed descriptors of that height, and every kept processed descriptor's
height is present. -/
def groupInv (ds : List RawFormat) (m : List (ℕ × FormatEntry)) : Prop :=
  (∀ h e, lookupH m h = some e →
    (∃ f ∈ ds, keptFormat f = true ∧ heightOf f = h ∧ entryOf f = e) ∧
    (∀ f ∈ ds, keptFormat f = true → heightOf f = h → keyLe (entryOf f) e)) ∧
  (∀ f ∈ ds, keptFormat f = true → lookupH m (heightOf f) ≠ none)

/-- A progress record as stored in download_progress.  The speed and eta
keys are present only in records written by the downloading branch of
progress_hook; `none` models an absent key. -/
structure Job where
  status : String
  percent : ℚ
  speed : Option ℚ
  eta : Option ℚ
deriving DecidableEq

/-- The download_progress dict (line 23).  Keys are the provider's media
ids; line 277 can store a key of None (`info.get('id')`), which the
progress routes can never address, so keys are `Option String`. -/
abbrev JobMap := List (Option String × Job)

/-- Python dict lookup, first match. -/
def lookupJ : JobMap → Option String → Option Job
  | [], _ => none
  | p :: rest, k => if p.1 = k then some p.2 else lookupJ rest k

/-- Python dict assignment: replace in place when the key exists, else
append preserving insertion order. -/
def dictSet (m : JobMap) (k : Option String) (v : Job) : JobMap :=
  if m.any (fun p => p.1 == k) then m.map (fun p => if p.1 = k then (k, v) else p)
  else m ++ [(k, v)]

/-- The dict `d` passed by yt-dlp to the progress hook: the fields that
progress_hook reads.  `none` models an absent key (or a None value). -/
structure HookInput where
  status : String
  info_id : Option String
  total_bytes : Option ℕ
  total_bytes_estimate : Option ℕ
  downloaded_bytes : Option ℕ
  speed : Option ℚ
  eta : Option ℚ
deriving DecidableEq

/-- Line 77: `d.get('total_bytes') or d.get('total_bytes_estimate', 0)`. -/
def hookTotal (d : HookInput) : ℕ :=
  pyOrNat d.total_bytes (d.total_bytes_estimate.getD 0)

/-- The progress_hook function of app.py lines 73–93. -/
def progress_hook (m : JobMap) (d : HookInput) : JobMap :=
  if d.status = "downloading" then
    let video_id := d.info_id.getD "unknown"
    let total := hookTotal d
    let downloaded := d.downloaded_bytes.getD 0
    if 0 < total then
      dictSet m (some video_id)
        ⟨"downloading", round1 ((downloaded : ℚ) / (total : ℚ) * 100),
          some (d.speed.getD 0), some (d.eta.getD 0)⟩
    else m
  else if d.status = "finished" then
    dictSet m (some (d.info_id.getD "unknown")) ⟨"finished", 100, none, none⟩
  else m

/-- A write to the job tracker: the explicit creation write of line 277, or
an invocation of the progress hook (whose finished branch is OnFinished). -/
inductive TrackEvent where
  | create (id : Option String)
  | hook (d : HookInput)

/-- Apply one tracker write. -/
def stepEvent (m : JobMap) : TrackEvent → JobMap
  | .create id => dictSet m id ⟨"starting", 0, none, none⟩
  | .hook d => progress_hook m d

/-- The job map after a sequence of writes starting from the empty dict. -/
def applyEvents (evs : List TrackEvent) : JobMap := evs.foldl stepEvent []

/-- Line 351's lookup default. -/
def defaultJob : Job := ⟨"unknown", 0, none, none⟩

/-- The get_progress route of app.py lines 348–352 (the /api/progress lookup):
a total function of the map and the requested id. -/
def get_progress (m : JobMap) (video_id : String) : Job :=
  (lookupJ m (some video_id)).getD defaultJob

/-- The terminal condition of the fetch attempted by download_video:
success, a yt_dlp.DownloadError, an OSError with its errno, or any other
exception, each carrying its rendered message. -/
inductive FetchOutcome where
  | success
  | dlError (msg : String)
  | osError (errno : ℤ) (msg : String)
  | otherExn (msg : String)

/-- A response body: the success JSON of line 314 or an error JSON. -/
inductive RespBody where
  | ok (video_id : Option String) (filename : String)
  | err (msg : String)
deriving DecidableEq

/-- An HTTP response: status code plus JSON body. -/
structure Resp where
  code : ℕ
  body : RespBody
deriving DecidableEq

/-- Python's `sub in s` on strings. -/
def containsSub (sub s : String) : Bool := occursIn sub.data s.data

/-- app.py lines 306–345: after the fetch, locate the downloaded file by
scanning the directory listing for a name containing the first 30
characters of the sanitized title, and classify failures.  `listing`
models os.listdir(DOWNLOAD_DIR); a listed name is taken to exist on disk
(line 313 re-checks os.path.exists on the entry just listed). -/
def downloadResult (outcome : FetchOutcome) (listing : List String)
    (title : String) (video_id : Option String) : Resp :=
  match outcome with
  | .success =>
    match listing.find? (fun f => containsSub (String.mk (title.data.take 30)) f) with
    | some f => ⟨200, .ok video_id f⟩
    | none => ⟨500, .err "Arquivo não encontrado após download"⟩
  | .dlError msg =>
    if containsSub "Invalid argument" msg || containsSub "Errno 22" msg then
      ⟨400, .err "Erro ao salvar arquivo: nome do arquivo inválido. Tente novamente ou escolha outro vídeo."⟩
    else ⟨400, .err ("Erro no download: " ++ msg)⟩
  | .osError errno msg =>
    if errno = 22 then
      ⟨400, .err "Erro ao salvar arquivo: nome do arquivo contém caracteres inválidos. Tente novamente."⟩
    else ⟨500, .err ("Erro do sistema: " ++ msg)⟩
  | .otherExn msg =>
    if containsSub "Invalid argument" msg || containsSub "Errno 22" msg then
      ⟨400, .err "Erro ao salvar arquivo: nome inválido. Tente novamente."⟩
    else ⟨500, .err ("Erro interno: " ++ msg)⟩

/-- Every stored percent lies in [0, 100]. -/
def percentInv (m : JobMap) : Prop :=
  ∀ k j, lookupJ m k = some j → 0 ≤ j.percent ∧ j.percent ≤ 100

/-- The normalcy condition under which the percent invariant holds: a
downloading event that will be recorded (positive effective total) reports
no more downloaded bytes than its total. -/
def okEvent : TrackEvent → Prop
  | .create _ => True
  | .hook d => d.status = "downloading" → 0 < hookTotal d →
      d.downloaded_bytes.getD 0 ≤ hookTotal d

/-- Scenario descriptor: height 1080, bitrate 5000 (spec's end-to-end test). -/
def scA : RawFormat :=
  ⟨some "avc1", some "none", some 1080, some "f1", some "mp4", none, none,
    some 5000, none⟩

/-- Scenario descriptor: height 1080, bitrate 8000. -/
def scB : RawFormat :=
  ⟨some "avc1", some "none", some 1080, some "f2", some "mp4", none, none,
    some 8000, none⟩

/-- Scenario descriptor: height 720, bitrate 3000. -/
def scC : RawFormat :=
  ⟨some "avc1", some "none", some 720, some "f3", some "mp4", none, none,
    some 3000, none⟩

/-- Scenario descriptor: height 360, bitrate 1000. -/
def scD : RawFormat :=
  ⟨some "avc1", some "none", some 360, some "f4", some "mp4", none, none,
    some 1000, none⟩

/-- A 201-character title: 199 letters, a period, one more letter.
Sanitization truncates it to 200 characters, exposing a trailing period. -/
def cexTitle : String := ⟨List.replicate 199 'a' ++ ['.', 'b']⟩

/-- A progress event reporting more downloaded bytes (200) than its total
(100). -/
def overEvent : HookInput :=
  ⟨"downloading", some "vid1", some 100, none, some 200, none, none⟩

/-- The record the downloading branch of progress_hook stores. -/
def hookJob (d : HookInput) : Job :=
  ⟨"downloading",
    round1 ((d.downloaded_bytes.getD 0 : ℚ) / (hookTotal d : ℚ) * 100),
    some (d.speed.getD 0), some (d.eta.getD 0)⟩


theorem occursIn_append_right (pat xs ys : List Char)
    (h : occursIn pat ys = true) : occursIn pat (xs ++ ys) = true := by
  induction xs with
  | nil => simpa using h
  | cons x xs ih =>
    simp only [List.cons_append, occursIn, Bool.or_eq_true]
    exact Or.inr ih

theorem matchesAt_length {pat l : List Char} (h : matchesAt pat l = true) :
    pat.length ≤ l.length := by
  induction pat generalizing l with
  | nil => simp
  | cons p ps ih =>
    cases l with
    | nil => simp [matchesAt] at h
    | cons c cs =>
      simp only [matchesAt, Bool.and_eq_true] at h
      simpa using ih h.2

theorem replInvalid_eq_self {l : List Char} (h : noInv l) : replInvalid l = l := by
  induction l with
  | nil => rfl
  | cons c rest ih =>
    simp only [replInvalid, List.map_cons]
    rw [if_neg (by simp [h c (List.mem_cons_self c rest)]),
      show rest.map _ = replInvalid rest from rfl,
      ih (fun d hd => h d (List.mem_cons_of_mem c hd))]

theorem collapseAux_eq_self {l : List Char} (h1 : spacesNorm l) (h2 : noAdjSpace l) :
    collapseAux false l = l ∧ (headNoSpace l → collapseAux true l = l) := by
  induction l with
  | nil => exact ⟨rfl, fun _ => rfl⟩
  | cons c rest ih =>
    have h1' : spacesNorm rest := fun d hd => h1 d (List.mem_cons_of_mem c hd)
    have h2' : noAdjSpace rest := List.Chain'.tail h2
    have ihr := ih h1' h2'
    by_cases hc : isPySpace c = true
    · have hcsp : c = ' ' := h1 c (List.mem_cons_self c rest) hc
      have hhead : headNoSpace rest := by
        intro d hd
        have hne : d ≠ ' ' := by
          have := (List.chain'_cons'.mp h2).1 d hd
          intro hd'
          exact this ⟨hcsp, hd'⟩
        by_contra hsp
        exact hne (h1' d (List.mem_of_mem_head? hd) (by simpa using hsp))
      constructor
      · simp only [collapseAux, hc, if_pos, if_true]
        rw [if_neg (by simp), ihr.2 hhead, hcsp]
      · intro hns
        exact absurd (hns c rfl) (by simp [hc])
    · have e : ∀ b, collapseAux b (c :: rest) = c :: collapseAux false rest := by
        intro b; simp [collapseAux, hc]
      exact ⟨by rw [e, ihr.1], fun _ => by rw [e, ihr.1]⟩

theorem dropWhile_eq_self_of_head {p : Char → Bool} {l : List Char}
    (h : ∀ c, l.head? = some c → p c = false) : l.dropWhile p = l := by
  cases l with
  | nil => rfl
  | cons c rest => simp [List.dropWhile_cons, h c rfl]

theorem rstripWs_eq_self {l : List Char} (h : lastNoSpace l) : rstripWs l = l := by
  unfold rstripWs
  rw [dropWhile_eq_self_of_head (fun c hc => h c (by rwa [List.head?_reverse] at hc)),
    List.reverse_reverse]

theorem stripWs_eq_self {l : List Char} (h1 : headNoSpace l) (h2 : lastNoSpace l) :
    stripWs l = l := by
  unfold stripWs
  rw [dropWhile_eq_self_of_head h1, rstripWs_eq_self h2]

theorem rstripDots_eq_self {l : List Char}
    (h : ∀ c, l.getLast? = some c → (c == '.' || c == ' ') = false) :
    rstripDots l = l := by
  unfold rstripDots
  rw [dropWhile_eq_self_of_head (fun c hc => h c (by rwa [List.head?_reverse] at hc)),
    List.reverse_reverse]

theorem truncate200_eq_self {l : List Char} (h : l.length ≤ 200) :
    truncate200 l = l := by
  unfold truncate200
  rw [if_neg (by omega)]

theorem head?_dropWhile {p : Char → Bool} {l : List Char} {c : Char}
    (h : (l.dropWhile p).head? = some c) : p c = false := by
  have := List.head?_dropWhile_not p l
  rw [h] at this
  exact this

theorem replInvalid_noInv (l : List Char) : noInv (replInvalid l) := by
  intro c hc
  simp only [replInvalid, List.mem_map] at hc
  obtain ⟨x, _, hx⟩ := hc
  by_cases hinv : isInvalidChar x = true
  · rw [if_pos hinv] at hx; rw [← hx]; decide
  · rw [if_neg hinv] at hx; rw [← hx]; simpa using hinv

theorem collapseAux_noInv {l : List Char} (h : noInv l) (b : Bool) :
    noInv (collapseAux b l) := by
  induction l generalizing b with
  | nil => intro c hc; simp [collapseAux] at hc
  | cons c rest ih =>
    have h' : noInv rest := fun d hd => h d (List.mem_cons_of_mem c hd)
    intro d hd
    by_cases hc : isPySpace c = true
    · simp only [collapseAux, hc, if_true] at hd
      cases b with
      | true => exact ih h' true d hd
      | false =>
        simp only [if_neg (Bool.false_ne_true), List.mem_cons] at hd
        cases hd with
        | inl h9 => rw [h9]; decide
        | inr h9 => exact ih h' true d h9
    · simp only [collapseAux, hc, if_false, List.mem_cons] at hd
      cases hd with
      | head => exact h _ (List.mem_cons_self _ _)
      | tail _ h9 => exact ih h' false _ h9

theorem collapseAux_spacesNorm (l : List Char) (b : Bool) :
    spacesNorm (collapseAux b l) := by
  induction l generalizing b with
  | nil => intro c hc; simp [collapseAux] at hc
  | cons c rest ih =>
    intro d hd
    by_cases hc : isPySpace c = true
    · simp only [collapseAux, hc, if_true] at hd
      cases b with
      | true => exact ih true d hd
      | false =>
        simp only [if_neg (Bool.false_ne_true), List.mem_cons] at hd
        cases hd with
        | inl h9 => rw [h9]; intro _; rfl
        | inr h9 => exact ih true d h9
    · simp only [collapseAux, hc, if_false, List.mem_cons] at hd
      cases hd with
      | head => intro hsp; exact absurd hsp (by simpa using hc)
      | tail _ h9 => exact ih false _ h9

theorem collapseAux_true_head {l : List Char} {c : Char}
    (h : (collapseAux true l).head? = some c) : isPySpace c = false := by
  induction l with
  | nil => simp [collapseAux] at h
  | cons d rest ih =>
    by_cases hd : isPySpace d = true
    · have e : collapseAux true (d :: rest) = collapseAux true rest := by
        simp [collapseAux, hd]
      rw [e] at h
      exact ih h
    · have e : collapseAux true (d :: rest) = d :: collapseAux false rest := by
        simp [collapseAux, hd]
      rw [e, List.head?_cons, Option.some_inj] at h
      rw [← h]; simpa using hd

theorem collapseAux_noAdj (l : List Char) (b : Bool) : noAdjSpace (collapseAux b l) := by
  induction l generalizing b with
  | nil => cases b <;> exact List.chain'_nil
  | cons c rest ih =>
    by_cases hc : isPySpace c = true
    · cases b with
      | true => simpa only [collapseAux, hc, if_true, if_pos] using ih true
      | false =>
        simp only [collapseAux, hc, if_true, if_neg (Bool.false_ne_true)]
        rw [noAdjSpace, List.chain'_cons']
        refine ⟨fun d hd => ?_, ih true⟩
        intro ⟨_, hd'⟩
        have := @collapseAux_true_head rest d (by simpa using hd)
        rw [hd'] at this
        exact absurd this (by decide)
    · have e : ∀ b', collapseAux b' (c :: rest) = c :: collapseAux false rest := by
        intro b'; simp [collapseAux, hc]
      rw [e, noAdjSpace, List.chain'_cons']
      refine ⟨fun d hd => ?_, ih false⟩
      intro ⟨hcs, _⟩
      rw [hcs] at hc
      exact absurd hc (by decide)

theorem rev_dropWhile_pre (p : Char → Bool) (l : List Char) :
    (l.reverse.dropWhile p).reverse <+: l := by
  obtain ⟨t, ht⟩ := @List.dropWhile_suffix Char l.reverse p
  exact ⟨t.reverse, by rw [← List.reverse_append, ht, List.reverse_reverse]⟩

theorem rstripWs_pre (l : List Char) : rstripWs l <+: l := rev_dropWhile_pre _ l

theorem rstripDots_pre (l : List Char) : rstripDots l <+: l := rev_dropWhile_pre _ l

theorem stripWs_inf (l : List Char) : stripWs l <:+: l := by
  obtain ⟨t, ht⟩ := rstripWs_pre (l.dropWhile isPySpace)
  obtain ⟨u, hu⟩ := @List.dropWhile_suffix Char l isPySpace
  refine ⟨u, t, ?_⟩
  unfold stripWs
  rw [List.append_assoc, ht, hu]

theorem inf_of_pre {l' l : List Char} (h : l' <+: l) : l' <:+: l := by
  obtain ⟨t, ht⟩ := h
  exact ⟨[], t, by simpa using ht⟩

theorem truncate200_pre (l : List Char) : truncate200 l <+: l := by
  unfold truncate200
  by_cases h : 200 < l.length
  · rw [if_pos h]
    exact (rstripWs_pre (l.take 200)).trans ( List.take_prefix 200 l)
  · rw [if_neg h]

theorem noInv_of_inf {l' l : List Char} (h : l' <:+: l) (hl : noInv l) : noInv l' :=
  fun c hc => hl c (List.IsInfix.sublist h |>.mem hc)

theorem spacesNorm_of_inf {l' l : List Char} (h : l' <:+: l) (hl : spacesNorm l) :
    spacesNorm l' :=
  fun c hc => hl c (List.IsInfix.sublist h |>.mem hc)

theorem noAdjSpace_of_inf {l' l : List Char} (h : l' <:+: l) (hl : noAdjSpace l) :
    noAdjSpace l' :=
  List.Chain'.infix hl h

theorem headNoSpace_of_pre {l' l : List Char} (h : l' <+: l) (hl : headNoSpace l) :
    headNoSpace l' := by
  intro c hc
  obtain ⟨t, ht⟩ := h
  cases l' with
  | nil => simp at hc
  | cons d rest =>
    rw [List.head?_cons, Option.some_inj] at hc
    exact hl c (by rw [← ht, List.cons_append, List.head?_cons, hc])

theorem rstripWs_last (l : List Char) : lastNoSpace (rstripWs l) := by
  intro c hc
  unfold rstripWs at hc
  rw [List.getLast?_reverse] at hc
  exact head?_dropWhile hc

theorem rstripDots_last {l : List Char} {c : Char}
    (hc : (rstripDots l).getLast? = some c) : (c == '.' || c == ' ') = false := by
  unfold rstripDots at hc
  rw [List.getLast?_reverse] at hc
  exact head?_dropWhile hc

theorem truncate200_len (l : List Char) : (truncate200 l).length ≤ max 200 l.length := by
  unfold truncate200
  by_cases h : 200 < l.length
  · rw [if_pos h]
    have h1 := (rstripWs_pre (l.take 200)).sublist.length_le
    have h2 := List.length_take 200 l
    omega
  · rw [if_neg h]
    omega

theorem cleanT_videoL : cleanT videoL := by
  refine ⟨?_, ?_, ?_, ?_, ?_, by decide⟩
  · unfold noInv videoL; decide
  · unfold spacesNorm videoL; decide
  · unfold noAdjSpace videoL; simp [List.chain'_cons]
  · intro c hc
    rw [show videoL.head? = some 'v' from rfl, Option.some_inj] at hc
    rw [← hc]; decide
  · intro c hc
    rw [show videoL.getLast? = some 'o' from rfl, Option.some_inj] at hc
    rw [← hc]; decide

theorem sanitizeL_wf (s : List Char) : cleanT (sanitizeL s) := by
  unfold sanitizeL
  by_cases hs : s = []
  · rw [if_pos hs]; exact cleanT_videoL
  rw [if_neg hs]
  set u2 := collapseWs (replInvalid s) with hu2
  set u3 := stripWs u2 with hu3
  set u4 := rstripDots u3 with hu4
  set u5 := truncate200 u4 with hu5
  by_cases h5 : u5 = []
  · rw [if_pos h5]; exact cleanT_videoL
  rw [if_neg h5]
  have i3 : u3 <:+: u2 := stripWs_inf u2
  have i4 : u4 <:+: u3 := inf_of_pre (rstripDots_pre u3)
  have i5 : u5 <:+: u4 := inf_of_pre (truncate200_pre u4)
  have i53 : u5 <:+: u2 := (i5.trans i4).trans i3
  have hInv : noInv u5 :=
    noInv_of_inf i53 (collapseAux_noInv (replInvalid_noInv s) false)
  have hNorm : spacesNorm u5 := spacesNorm_of_inf i53 (collapseAux_spacesNorm _ false)
  have hAdj : noAdjSpace u5 := noAdjSpace_of_inf i53 (collapseAux_noAdj _ false)
  have hHead : headNoSpace u5 := by
    refine headNoSpace_of_pre ((truncate200_pre u4).trans (rstripDots_pre u3)) ?_
    refine headNoSpace_of_pre (rstripWs_pre (u2.dropWhile isPySpace)) ?_
    intro c hc
    exact head?_dropWhile hc
  have hLast : lastNoSpace u5 := by
    have hcase : u5 = rstripWs (u4.take 200) ∨ u5 = u4 := by
      rw [hu5]
      unfold truncate200
      by_cases h200 : 200 < u4.length
      · rw [if_pos h200]; exact Or.inl rfl
      · rw [if_neg h200]; exact Or.inr rfl
    cases hcase with
    | inl h => rw [h]; exact rstripWs_last _
    | inr h =>
      intro c hc
      rw [h] at hc
      have hdots : (c == '.' || c == ' ') = false := @rstripDots_last u3 c hc
      by_contra hsp
      have hsp' : isPySpace c = true := by simpa using hsp
      have hcs : c = ' ' := hNorm c (by rw [h]; exact List.mem_of_mem_getLast? hc) hsp'
      rw [hcs] at hdots
      simp at hdots
  have hLen : u5.length ≤ 200 := by
    have := truncate200_len u4
    rw [← hu5] at this
    by_cases h200 : 200 < u4.length
    · have h1 : u5.length ≤ (u4.take 200).length := by
        rw [hu5]
        unfold truncate200
        rw [if_pos h200]
        exact (rstripWs_pre _).sublist.length_le
      have h2 := List.length_take 200 u4
      omega
    · have : u5 = u4 := by rw [hu5]; unfold truncate200; rw [if_neg h200]
      rw [this]; omega
  exact ⟨hInv, hNorm, hAdj, hHead, hLast, hLen⟩

theorem sanitizeL_ne_nil (s : List Char) : sanitizeL s ≠ [] := by
  unfold sanitizeL
  by_cases hs : s = []
  · rw [if_pos hs]; decide
  rw [if_neg hs]
  by_cases h5 : truncate200 (rstripDots (stripWs (collapseWs (replInvalid s)))) = []
  · rw [if_pos h5]; decide
  · rw [if_neg h5]; exact h5

theorem sanitizeL_fix {t : List Char} (hcl : cleanT t)
    (hdot : t.getLast? ≠ some '.') (hne : t ≠ []) : sanitizeL t = t := by
  obtain ⟨hInv, hNorm, hAdj, hHead, hLast, hLen⟩ := hcl
  have e1 : replInvalid t = t := replInvalid_eq_self hInv
  have e2 : collapseWs t = t := (collapseAux_eq_self hNorm hAdj).1
  have e3 : stripWs t = t := stripWs_eq_self hHead hLast
  have e4 : rstripDots t = t := by
    refine rstripDots_eq_self (fun c hc => ?_)
    have hcd : c ≠ '.' := fun h => hdot (by rw [← h]; exact hc)
    have hcs : c ≠ ' ' := by
      intro h
      have := hLast c hc
      rw [h] at this
      exact absurd this (by decide)
    simp [hcd, hcs]
  have e5 : truncate200 t = t := truncate200_eq_self hLen
  unfold sanitizeL
  rw [if_neg hne]
  show (if truncate200 (rstripDots (stripWs (collapseWs (replInvalid t)))) = []
    then videoL else truncate200 (rstripDots (stripWs (collapseWs (replInvalid t))))) = t
  rw [e1, e2, e3, e4, e5, if_neg hne]

theorem sanitizeL_idem {s : List Char} (h : (sanitizeL s).getLast? ≠ some '.') :
    sanitizeL (sanitizeL s) = sanitizeL s :=
  sanitizeL_fix (sanitizeL_wf s) h (sanitizeL_ne_nil s)

theorem replaceAll_len_le {pat rep : List Char} (h : rep.length ≤ pat.length) :
    ∀ n l, l.length ≤ n → (replaceAll pat rep l).length ≤ l.length := by
  intro n
  induction n with
  | zero =>
    intro l hl
    rw [List.length_eq_zero.mp (Nat.le_zero.mp hl)]
    simp [replaceAll]
  | succ n ih =>
    intro l hl
    cases l with
    | nil => simp [replaceAll]
    | cons c rest =>
      rw [replaceAll]
      by_cases hm : matchesAt pat (c :: rest) = true
      · rw [if_pos hm]
        have hplen := matchesAt_length hm
        have hdrop : (rest.drop (pat.length - 1)).length ≤ n := by
          rw [List.length_drop]
          rw [List.length_cons] at hl
          omega
        have hrec := ih _ hdrop
        rw [List.length_append, List.length_cons]
        rw [List.length_drop] at hrec
        rw [List.length_cons] at hplen
        omega
      · rw [if_neg hm]
        rw [List.length_cons, List.length_cons]
        have := ih rest (by rw [List.length_cons] at hl; omega)
        omega

theorem replaceAll_len_occurs {pat rep : List Char} (h : rep.length ≤ pat.length) :
    ∀ n l, l.length ≤ n → occursIn pat l = true →
    (replaceAll pat rep l).length + pat.length ≤ l.length + rep.length := by
  intro n
  induction n with
  | zero =>
    intro l hl hocc
    rw [List.length_eq_zero.mp (Nat.le_zero.mp hl)] at hocc ⊢
    simp only [occursIn] at hocc
    have : pat.length ≤ 0 := by simpa using matchesAt_length hocc
    simp [replaceAll]
    omega
  | succ n ih =>
    intro l hl hocc
    cases l with
    | nil =>
      simp only [occursIn] at hocc
      have : pat.length ≤ 0 := by simpa using matchesAt_length hocc
      simp [replaceAll]
      omega
    | cons c rest =>
      rw [replaceAll]
      by_cases hm : matchesAt pat (c :: rest) = true
      · rw [if_pos hm]
        have hplen := matchesAt_length hm
        rw [List.length_cons] at hplen
        have hdrop : (rest.drop (pat.length - 1)).length ≤ n := by
          rw [List.length_drop]
          rw [List.length_cons] at hl
          omega
        have hrec := replaceAll_len_le h _ _ hdrop
        rw [List.length_append, List.length_cons]
        rw [List.length_drop] at hrec
        omega
      · rw [if_neg hm]
        have hocc' : occursIn pat rest = true := by
          simp only [occursIn, Bool.or_eq_true] at hocc
          rcases hocc with hocc | hocc
          · exact absurd hocc hm
          · exact hocc
        have := ih rest (by rw [List.length_cons] at hl; omega) hocc'
        rw [List.length_cons, List.length_cons]
        omega

theorem rstripWs_len (l : List Char) : (rstripWs l).length ≤ l.length :=
  (rstripWs_pre l).sublist.length_le

theorem mkTmpl_length (dir t : List Char) (ao : Bool) :
    (mkTmpl dir t ao).length =
      dir.length + 1 + t.length + (if ao then 8 else 20) := by
  unfold mkTmpl
  cases ao with
  | true => simp [List.length_append, sepL, audTail]; omega
  | false => simp [List.length_append, sepL, vidTail]; omega

theorem occursIn_extPat_mkTmpl (dir t : List Char) (ao : Bool) :
    occursIn extPat (mkTmpl dir t ao) = true := by
  unfold mkTmpl
  cases ao with
  | true =>
    rw [if_pos rfl, show dir ++ sepL ++ t ++ audTail = (dir ++ sepL ++ t) ++ audTail
      from rfl]
    exact occursIn_append_right _ _ _ (by decide)
  | false =>
    rw [if_neg (by simp),
      show dir ++ sepL ++ t ++ vidTail = (dir ++ sepL ++ t) ++ vidTail from rfl]
    exact occursIn_append_right _ _ _ (by decide)

theorem substRepr_mkTmpl_le (dir t : List Char) (ao : Bool) :
    (substRepr (mkTmpl dir t ao)).length + 4 ≤ (mkTmpl dir t ao).length := by
  unfold substRepr
  have h1 := @replaceAll_len_occurs extPat reprExt (by decide)
    (mkTmpl dir t ao).length _ le_rfl (occursIn_extPat_mkTmpl dir t ao)
  have h2 := @replaceAll_len_le heightPat reprHeight (by decide)
    (replaceAll extPat reprExt (mkTmpl dir t ao)).length _ le_rfl
  have e1 : extPat.length = 7 := by decide
  have e2 : reprExt.length = 3 := by decide
  omega

theorem shortTitle_len {dir : List Char} (t1 : List Char) (hdir : dir.length ≤ 229) :
    (shortTitle dir t1).length ≤ 230 - dir.length := by
  unfold shortTitle
  rw [if_pos (by omega)]
  have h1 := rstripWs_len (t1.take (250 - (dir.length : ℤ) - 20).toNat)
  have h2 := List.length_take (250 - (dir.length : ℤ) - 20).toNat t1
  omega

/-- Main bound for claim C4: for any base directory of at most 229 characters
(the code's DOWNLOAD_DIR in any realistic deployment) and any raw title,
the final output template with representative placeholder substitution never
exceeds 250 characters. -/
theorem finalOutTmpl_le_250 (dir rawTitle : List Char) (ao : Bool)
    (hdir : dir.length ≤ 229) :
    (substRepr (finalOutTmpl dir rawTitle ao)).length ≤ 250 := by
  unfold finalOutTmpl
  by_cases hb : 250 < (substRepr (mkTmpl dir (cap150 (sanitizeL rawTitle)) ao)).length
  · rw [if_pos hb]
    have hshort := shortTitle_len (cap150 (sanitizeL rawTitle)) hdir
    have hsub := substRepr_mkTmpl_le dir (shortTitle dir (cap150 (sanitizeL rawTitle))) ao
    have hlen := mkTmpl_length dir (shortTitle dir (cap150 (sanitizeL rawTitle))) ao
    have hcase : (if ao = true then (8 : ℕ) else 20) ≤ 20 := by cases ao <;> simp
    omega
  · rw [if_neg hb]
    omega

theorem beats_iff {e old : FormatEntry} : beats e old = true ↔ keyLt old e := by
  unfold beats keyLt
  simp only [Bool.or_eq_true, Bool.and_eq_true, decide_eq_true_eq]
  constructor
  · intro h
    rcases h with h | ⟨h1, h2⟩
    · exact Or.inl h
    · rcases lt_or_eq_of_le h2 with h3 | h3
      · exact Or.inl h3
      · exact Or.inr ⟨h3, h1⟩
  · intro h
    rcases h with h | ⟨h1, h2⟩
    · exact Or.inl h
    · exact Or.inr ⟨h2, le_of_eq h1⟩

theorem keyLe_refl (a : FormatEntry) : keyLe a a := Or.inr ⟨rfl, le_refl _⟩

theorem keyLe_of_not_keyLt {a b : FormatEntry} (h : ¬ keyLt a b) : keyLe b a := by
  unfold keyLt at h
  push_neg at h
  obtain ⟨h1, h2⟩ := h
  rcases lt_or_eq_of_le h1 with h3 | h3
  · exact Or.inl h3
  · exact Or.inr ⟨h3, h2 h3.symm⟩

theorem keyLe_trans_keyLt {a b c : FormatEntry} (h1 : keyLe a b) (h2 : keyLt b c) :
    keyLe a c := by
  unfold keyLe keyLt at *
  rcases h1 with h1 | ⟨h1, h1'⟩ <;> rcases h2 with h2 | ⟨h2, h2'⟩
  · exact Or.inl (h1.trans h2)
  · exact Or.inl (h2 ▸ h1)
  · exact Or.inl (h1 ▸ h2)
  · exact Or.inr ⟨h1.trans h2, le_of_lt (lt_of_le_of_lt h1' h2')⟩

theorem lookupH_append_self {m : List (ℕ × FormatEntry)} {h : ℕ} (e : FormatEntry)
    (hnone : lookupH m h = none) : lookupH (m ++ [(h, e)]) h = some e := by
  induction m with
  | nil => simp [lookupH]
  | cons p rest ih =>
    rw [List.cons_append, lookupH]
    rw [lookupH] at hnone
    by_cases hp : p.1 = h
    · rw [if_pos hp] at hnone; exact absurd hnone (by simp)
    · rw [if_neg hp] at hnone ⊢; exact ih hnone

theorem lookupH_append_ne {m : List (ℕ × FormatEntry)} {h h' : ℕ} (e : FormatEntry)
    (hne : h' ≠ h) : lookupH (m ++ [(h, e)]) h' = lookupH m h' := by
  induction m with
  | nil =>
    show (if (h, e).1 = h' then some (h, e).2 else (none : Option FormatEntry)) = none
    rw [if_neg (fun he => hne (Eq.symm he))]
  | cons p rest ih =>
    rw [List.cons_append, lookupH, lookupH]
    by_cases hp : p.1 = h'
    · rw [if_pos hp, if_pos hp]
    · rw [if_neg hp, if_neg hp]; exact ih

theorem lookupH_writeAt_self {m : List (ℕ × FormatEntry)} {h : ℕ} (e : FormatEntry)
    (hsome : lookupH m h ≠ none) : lookupH (writeAt m h e) h = some e := by
  induction m with
  | nil => simp [lookupH] at hsome
  | cons p rest ih =>
    rw [lookupH] at hsome
    unfold writeAt
    rw [List.map_cons]
    by_cases hp : p.1 = h
    · rw [if_pos hp, lookupH, if_pos rfl]
    · rw [if_neg hp] at hsome ⊢
      rw [lookupH, if_neg hp]
      exact ih hsome

theorem lookupH_writeAt_ne {m : List (ℕ × FormatEntry)} {h h' : ℕ} (e : FormatEntry)
    (hne : h' ≠ h) : lookupH (writeAt m h e) h' = lookupH m h' := by
  induction m with
  | nil => rfl
  | cons p rest ih =>
    unfold writeAt at ih ⊢
    rw [List.map_cons]
    by_cases hp : p.1 = h
    · rw [if_pos hp, lookupH, lookupH, if_neg (fun he => hne (Eq.symm he)),
        if_neg (fun he => hne (Eq.symm (hp.symm.trans he)))]
      exact ih
    · rw [if_neg hp, lookupH, lookupH]
      by_cases hp' : p.1 = h'
      · rw [if_pos hp', if_pos hp']
      · rw [if_neg hp', if_neg hp']
        exact ih

theorem insertFmt_notKept {m : List (ℕ × FormatEntry)} {f : RawFormat}
    (hk : ¬ keptFormat f = true) : insertFmt m f = m := by
  unfold insertFmt
  rw [if_neg hk]

theorem insertFmt_new {m : List (ℕ × FormatEntry)} {f : RawFormat}
    (hk : keptFormat f = true) (hlk : lookupH m (heightOf f) = none) :
    insertFmt m f = m ++ [(heightOf f, entryOf f)] := by
  unfold insertFmt
  rw [if_pos hk, hlk]

theorem insertFmt_beats {m : List (ℕ × FormatEntry)} {f : RawFormat}
    {old : FormatEntry} (hk : keptFormat f = true)
    (hlk : lookupH m (heightOf f) = some old) (hb : beats (entryOf f) old = true) :
    insertFmt m f = writeAt m (heightOf f) (entryOf f) := by
  unfold insertFmt
  rw [if_pos hk, hlk]
  exact if_pos hb

theorem insertFmt_noBeats {m : List (ℕ × FormatEntry)} {f : RawFormat}
    {old : FormatEntry} (hk : keptFormat f = true)
    (hlk : lookupH m (heightOf f) = some old) (hb : ¬ beats (entryOf f) old = true) :
    insertFmt m f = m := by
  unfold insertFmt
  rw [if_pos hk, hlk]
  exact if_neg hb

theorem formats_by_height_inv (ds : List RawFormat) :
    groupInv ds (formats_by_height ds) := by
  induction ds using List.reverseRecOn with
  | nil =>
    constructor
    · intro h e he; simp [formats_by_height, lookupH] at he
    · intro f hf; simp at hf
  | append_singleton ds f ih =>
    have estep : formats_by_height (ds ++ [f]) = insertFmt (formats_by_height ds) f := by
      unfold formats_by_height
      rw [List.foldl_append]
      rfl
    obtain ⟨ih1, ih2⟩ := ih
    rw [estep]
    by_cases hk : keptFormat f = true
    · cases hlk : lookupH (formats_by_height ds) (heightOf f) with
      | none =>
        rw [insertFmt_new hk hlk]
        constructor
        · intro h e he
          by_cases hh : h = heightOf f
          · subst hh
            rw [lookupH_append_self _ hlk] at he
            obtain rfl := Option.some_inj.mp he
            constructor
            · exact ⟨f, by simp, hk, rfl, rfl⟩
            · intro f' hf' hk' hh'
              rcases List.mem_append.mp hf' with hf' | hf'
              · exact absurd hlk (hh' ▸ ih2 f' hf' hk')
              · rw [List.mem_singleton.mp hf']
                exact keyLe_refl _
          · rw [lookupH_append_ne _ hh] at he
            obtain ⟨hex, hmax⟩ := ih1 h e he
            constructor
            · obtain ⟨g, hg, h1, h2, h3⟩ := hex
              exact ⟨g, List.mem_append_left _ hg, h1, h2, h3⟩
            · intro f' hf' hk' hh'
              rcases List.mem_append.mp hf' with hf' | hf'
              · exact hmax f' hf' hk' hh'
              · rw [List.mem_singleton.mp hf'] at hh'
                exact absurd hh'.symm hh
        · intro f' hf' hk'
          rcases List.mem_append.mp hf' with hf' | hf'
          · by_cases hh : heightOf f' = heightOf f
            · rw [hh, lookupH_append_self _ hlk]; simp
            · rw [lookupH_append_ne _ hh]; exact ih2 f' hf' hk'
          · rw [List.mem_singleton.mp hf', lookupH_append_self _ hlk]; simp
      | some old =>
        by_cases hb : beats (entryOf f) old = true
        · rw [insertFmt_beats hk hlk hb]
          constructor
          · intro h e he
            by_cases hh : h = heightOf f
            · subst hh
              rw [lookupH_writeAt_self _ (by rw [hlk]; simp)] at he
              obtain rfl := Option.some_inj.mp he
              constructor
              · exact ⟨f, by simp, hk, rfl, rfl⟩
              · intro f' hf' hk' hh'
                rcases List.mem_append.mp hf' with hf' | hf'
                · have h1 := (ih1 _ old hlk).2 f' hf' hk' hh'
                  exact keyLe_trans_keyLt h1 (beats_iff.mp hb)
                · rw [List.mem_singleton.mp hf']
                  exact keyLe_refl _
            · rw [lookupH_writeAt_ne _ hh] at he
              obtain ⟨hex, hmax⟩ := ih1 h e he
              constructor
              · obtain ⟨g, hg, h1, h2, h3⟩ := hex
                exact ⟨g, List.mem_append_left _ hg, h1, h2, h3⟩
              · intro f' hf' hk' hh'
                rcases List.mem_append.mp hf' with hf' | hf'
                · exact hmax f' hf' hk' hh'
                · rw [List.mem_singleton.mp hf'] at hh'
                  exact absurd hh'.symm hh
          · intro f' hf' hk'
            rcases List.mem_append.mp hf' with hf' | hf'
            · by_cases hh : heightOf f' = heightOf f
              · rw [hh, lookupH_writeAt_self _ (by rw [hlk]; simp)]; simp
              · rw [lookupH_writeAt_ne _ hh]; exact ih2 f' hf' hk'
            · rw [List.mem_singleton.mp hf',
                lookupH_writeAt_self _ (by rw [hlk]; simp)]
              simp
        · rw [insertFmt_noBeats hk hlk hb]
          constructor
          · intro h e he
            obtain ⟨hex, hmax⟩ := ih1 h e he
            constructor
            · obtain ⟨g, hg, h1, h2, h3⟩ := hex
              exact ⟨g, List.mem_append_left _ hg, h1, h2, h3⟩
            · intro f' hf' hk' hh'
              rcases List.mem_append.mp hf' with hf' | hf'
              · exact hmax f' hf' hk' hh'
              · rw [List.mem_singleton.mp hf'] at hh' ⊢
                have he' : e = old := by
                  rw [← hh'] at he
                  rw [hlk] at he
                  exact (Option.some_inj.mp he).symm
                rw [he']
                exact keyLe_of_not_keyLt (fun hlt => hb (beats_iff.mpr hlt))
          · intro f' hf' hk'
            rcases List.mem_append.mp hf' with hf' | hf'
            · exact ih2 f' hf' hk'
            · rw [List.mem_singleton.mp hf', hlk]; simp
    · rw [insertFmt_notKept hk]
      constructor
      · intro h e he
        obtain ⟨hex, hmax⟩ := ih1 h e he
        constructor
        · obtain ⟨g, hg, h1, h2, h3⟩ := hex
          exact ⟨g, List.mem_append_left _ hg, h1, h2, h3⟩
        · intro f' hf' hk' hh'
          rcases List.mem_append.mp hf' with hf' | hf'
          · exact hmax f' hf' hk' hh'
          · rw [List.mem_singleton.mp hf'] at hk'
            exact absurd hk' hk
      · intro f' hf' hk'
        rcases List.mem_append.mp hf' with hf' | hf'
        · exact ih2 f' hf' hk'
        · rw [List.mem_singleton.mp hf'] at hk'
          exact absurd hk' hk

theorem find?_height_eq {formats : List FormatEntry} {t : ℕ} {f : FormatEntry}
    (h : formats.find? (fun f => f.height == t) = some f) : f.height = t := by
  have := List.find?_some h
  simpa using this

theorem pairwise_filterMap_heights (g : ℕ → Option QualityTier)
    (hg : ∀ t x, g t = some x → x.height = t) :
    ∀ l : List ℕ, l.Pairwise (fun a b => b < a) →
      (l.filterMap g).Pairwise (fun a b => b.height < a.height) := by
  intro l
  induction l with
  | nil => intro _; simp
  | cons t ts ih =>
    intro hp
    rw [List.filterMap_cons]
    obtain ⟨hhead, htail⟩ := List.pairwise_cons.mp hp
    cases hgt : g t with
    | none => exact ih htail
    | some x =>
      refine List.pairwise_cons.mpr ⟨?_, ih htail⟩
      intro y hy
      obtain ⟨s, hs, hgs⟩ := List.mem_filterMap.mp hy
      rw [hg t x hgt, hg s y hgs]
      exact hhead s hs

theorem lookupJ_append_self {m : JobMap} {k : Option String} (v : Job)
    (hnone : lookupJ m k = none) : lookupJ (m ++ [(k, v)]) k = some v := by
  induction m with
  | nil => simp [lookupJ]
  | cons p rest ih =>
    rw [List.cons_append, lookupJ]
    rw [lookupJ] at hnone
    by_cases hp : p.1 = k
    · rw [if_pos hp] at hnone; exact absurd hnone (by simp)
    · rw [if_neg hp] at hnone ⊢; exact ih hnone

theorem lookupJ_append_ne {m : JobMap} {k k' : Option String} (v : Job)
    (hne : k' ≠ k) : lookupJ (m ++ [(k, v)]) k' = lookupJ m k' := by
  induction m with
  | nil =>
    show (if (k, v).1 = k' then some (k, v).2 else (none : Option Job)) = none
    rw [if_neg (fun he => hne (Eq.symm he))]
  | cons p rest ih =>
    rw [List.cons_append, lookupJ, lookupJ]
    by_cases hp : p.1 = k'
    · rw [if_pos hp, if_pos hp]
    · rw [if_neg hp, if_neg hp]; exact ih

theorem lookupJ_map_self {m : JobMap} {k : Option String} (v : Job)
    (hsome : lookupJ m k ≠ none) :
    lookupJ (m.map (fun p => if p.1 = k then (k, v) else p)) k = some v := by
  induction m with
  | nil => simp [lookupJ] at hsome
  | cons p rest ih =>
    rw [lookupJ] at hsome
    rw [List.map_cons]
    by_cases hp : p.1 = k
    · rw [if_pos hp, lookupJ, if_pos rfl]
    · rw [if_neg hp] at hsome ⊢
      rw [lookupJ, if_neg hp]
      exact ih hsome

theorem lookupJ_map_ne {m : JobMap} {k k' : Option String} (v : Job)
    (hne : k' ≠ k) :
    lookupJ (m.map (fun p => if p.1 = k then (k, v) else p)) k' = lookupJ m k' := by
  induction m with
  | nil => rfl
  | cons p rest ih =>
    rw [List.map_cons]
    by_cases hp : p.1 = k
    · rw [if_pos hp, lookupJ, lookupJ, if_neg (fun he => hne (Eq.symm he)),
        if_neg (fun he => hne (Eq.symm (hp.symm.trans he)))]
      exact ih
    · rw [if_neg hp, lookupJ, lookupJ]
      by_cases hp' : p.1 = k'
      · rw [if_pos hp', if_pos hp']
      · rw [if_neg hp', if_neg hp']
        exact ih

theorem lookupJ_none_of_any_false {m : JobMap} {k : Option String}
    (h : m.any (fun p => p.1 == k) = false) : lookupJ m k = none := by
  induction m with
  | nil => rfl
  | cons p rest ih =>
    rw [List.any_cons, Bool.or_eq_false_iff] at h
    rw [lookupJ, if_neg (by simpa using h.1)]
    exact ih h.2

theorem lookupJ_some_of_any_true {m : JobMap} {k : Option String}
    (h : m.any (fun p => p.1 == k) = true) : lookupJ m k ≠ none := by
  induction m with
  | nil => simp at h
  | cons p rest ih =>
    rw [List.any_cons, Bool.or_eq_true] at h
    rw [lookupJ]
    by_cases hp : p.1 = k
    · rw [if_pos hp]; simp
    · rw [if_neg hp]
      rcases h with h | h
      · exact absurd (by simpa using h) hp
      · exact ih h

theorem dictSet_lookup_self (m : JobMap) (k : Option String) (v : Job) :
    lookupJ (dictSet m k v) k = some v := by
  unfold dictSet
  by_cases hany : m.any (fun p => p.1 == k) = true
  · rw [if_pos hany]
    exact lookupJ_map_self v (lookupJ_some_of_any_true hany)
  · rw [if_neg hany]
    exact lookupJ_append_self v
      (lookupJ_none_of_any_false (Bool.eq_false_iff.mpr hany))

theorem dictSet_lookup_ne (m : JobMap) (k : Option String) (v : Job)
    {k' : Option String} (hne : k' ≠ k) :
    lookupJ (dictSet m k v) k' = lookupJ m k' := by
  unfold dictSet
  by_cases hany : m.any (fun p => p.1 == k) = true
  · rw [if_pos hany]
    exact lookupJ_map_ne v hne
  · rw [if_neg hany]
    exact lookupJ_append_ne v hne

theorem round1_mem_Icc {x : ℚ} (h0 : 0 ≤ x) (h100 : x ≤ 100) :
    0 ≤ round1 x ∧ round1 x ≤ 100 := by
  unfold round1
  have hr0 : (0 : ℤ) ≤ round (10 * x) := by
    rw [round_eq]
    exact Int.floor_nonneg.mpr (by linarith)
  have hr1000 : round (10 * x) ≤ 1000 := by
    rw [round_eq]
    rw [Int.floor_le_iff]
    push_cast
    linarith
  constructor
  · positivity
  · rw [div_le_iff₀ (by norm_num)]
    calc ((round (10 * x) : ℤ) : ℚ) ≤ ((1000 : ℤ) : ℚ) := by exact_mod_cast hr1000
    _ = 100 * 10 := by norm_num

theorem percent_formula_mem {d t : ℕ} (ht : 0 < t) (hd : d ≤ t) :
    0 ≤ round1 ((d : ℚ) / (t : ℚ) * 100) ∧ round1 ((d : ℚ) / (t : ℚ) * 100) ≤ 100 := by
  have htq : (0 : ℚ) < t := by exact_mod_cast ht
  have hdq : (d : ℚ) ≤ t := by exact_mod_cast hd
  have h1 : (d : ℚ) / t ≤ 1 := (div_le_one htq).mpr hdq
  have h0 : (0 : ℚ) ≤ (d : ℚ) / t := div_nonneg (by positivity) (le_of_lt htq)
  exact round1_mem_Icc (by linarith) (by linarith)

theorem stepEvent_percentInv {m : JobMap} (h : percentInv m) {e : TrackEvent}
    (he : okEvent e) : percentInv (stepEvent m e) := by
  cases e with
  | create id =>
    intro k j hj
    by_cases hk : k = id
    · subst hk
      rw [show stepEvent m (TrackEvent.create k) = dictSet m k ⟨"starting", 0, none, none⟩
          from rfl, dictSet_lookup_self] at hj
      obtain rfl := Option.some_inj.mp hj
      norm_num
    · rw [show stepEvent m (TrackEvent.create id) = dictSet m id ⟨"starting", 0, none, none⟩
          from rfl, dictSet_lookup_ne m id _ hk] at hj
      exact h k j hj
  | hook d =>
    have hstep : stepEvent m (TrackEvent.hook d) = progress_hook m d := rfl
    rw [hstep]
    unfold progress_hook
    by_cases hst : d.status = "downloading"
    · rw [if_pos hst]
      by_cases htot : 0 < hookTotal d
      · rw [if_pos htot]
        intro k j hj
        by_cases hk : k = some (d.info_id.getD "unknown")
        · subst hk
          rw [dictSet_lookup_self] at hj
          obtain rfl := Option.some_inj.mp hj
          exact percent_formula_mem htot (he hst htot)
        · rw [dictSet_lookup_ne _ _ _ hk] at hj
          exact h k j hj
      · rw [if_neg htot]
        exact h
    · rw [if_neg hst]
      by_cases hfin : d.status = "finished"
      · rw [if_pos hfin]
        intro k j hj
        by_cases hk : k = some (d.info_id.getD "unknown")
        · subst hk
          rw [dictSet_lookup_self] at hj
          obtain rfl := Option.some_inj.mp hj
          norm_num
        · rw [dictSet_lookup_ne _ _ _ hk] at hj
          exact h k j hj
      · rw [if_neg hfin]
        exact h

theorem foldl_percentInv {m : JobMap} (hm : percentInv m) :
    ∀ evs : List TrackEvent, (∀ e ∈ evs, okEvent e) →
      percentInv (evs.foldl stepEvent m) := by
  intro evs
  induction evs generalizing m with
  | nil => intro _; exact hm
  | cons e rest ih =>
    intro hok
    rw [List.foldl_cons]
    exact ih (stepEvent_percentInv hm (hok e (List.mem_cons_self e rest)))
      (fun e' he' => hok e' (List.mem_cons_of_mem e he'))

/-- C1: for every descriptor list, the /api/info format processing returns a
list whose last entry is the synthetic audio-only tier, whose video part
(everything before it) is strictly sorted by height descending — hence no
two video tiers share a height — with at most 8 entries in total, and on
the empty descriptor list the result is exactly the audio-only tier. -/
theorem C1_rank_shape :
    (∀ ds : List RawFormat,
      (rank ds).getLast? = some audioTier ∧
      (rank ds).dropLast.Pairwise (fun a b => b.height < a.height) ∧
      ((rank ds).dropLast.map (fun t => t.height)).Nodup ∧
      (rank ds).length ≤ 8) ∧
    rank [] = [audioTier] := by
  constructor
  · intro ds
    have hshape : rank ds =
        (target_heights.filterMap (fun t =>
          ((sortByHeightDesc ((formats_by_height ds).map Prod.snd)).find?
            (fun f => f.height == t)).map stripVbr)) ++ [audioTier] := rfl
    have hpair : (target_heights.filterMap (fun t =>
        ((sortByHeightDesc ((formats_by_height ds).map Prod.snd)).find?
          (fun f => f.height == t)).map stripVbr)).Pairwise
        (fun a b => b.height < a.height) := by
      refine pairwise_filterMap_heights _ ?_ target_heights (by decide)
      intro t x hx
      rw [Option.map_eq_some'] at hx
      obtain ⟨f, hf, rfl⟩ := hx
      exact find?_height_eq hf
    refine ⟨?_, ?_, ?_, ?_⟩
    · rw [hshape]; exact List.getLast?_concat _
    · rw [hshape, List.dropLast_concat]; exact hpair
    · rw [hshape, List.dropLast_concat]
      unfold List.Nodup
      rw [List.pairwise_map]
      exact hpair.imp (fun h => Nat.ne_of_gt h)
    · rw [hshape, List.length_append]
      have := List.length_filterMap_le (fun t =>
        ((sortByHeightDesc ((formats_by_height ds).map Prod.snd)).find?
          (fun f => f.height == t)).map stripVbr) target_heights
      simp only [List.length_singleton]
      have h7 : target_heights.length = 7 := rfl
      omega
  · rfl

/-- C2: every representative stored by the per-height grouping comes from a
kept descriptor of that height and lexicographically maximises (vbr with
tbr/0 fallback, then file size) over all kept descriptors of that height;
and on the spec's end-to-end scenario (heights 1080/1080/720/360, bitrates
5000/8000/3000/1000) the ranked tiers are 1080 (the bitrate-8000
representative), 720, 360, then the audio tier. -/
theorem C2_best_representative :
    (∀ (ds : List RawFormat) (h : ℕ) (e : FormatEntry),
      lookupH (formats_by_height ds) h = some e →
      (∃ f ∈ ds, keptFormat f = true ∧ heightOf f = h ∧ entryOf f = e) ∧
      (∀ f ∈ ds, keptFormat f = true → heightOf f = h → keyLe (entryOf f) e)) ∧
    (rank [scA, scB, scC, scD]).map (fun t => (t.height, t.format_id)) =
      [(1080, some "f2"), (720, some "f3"), (360, some "f4"), (0, some "bestaudio")] := by
  constructor
  · intro ds h e he
    exact (formats_by_height_inv ds).1 h e he
  · decide

/-- C2 witness: in the concrete scenario the 1080p representative is the
bitrate-8000 descriptor, and the theorem yields that the bitrate-5000
descriptor's key is dominated. -/
theorem C2_best_representative_witness :
    lookupH (formats_by_height [scA, scB, scC, scD]) 1080 = some (entryOf scB) ∧
    keyLe (entryOf scA) (entryOf scB) := by
  have h1 : lookupH (formats_by_height [scA, scB, scC, scD]) 1080 = some (entryOf scB) := by
    decide
  exact ⟨h1, (C2_best_representative.1 [scA, scB, scC, scD] 1080 (entryOf scB) h1).2
    scA (by decide) (by decide) (by decide)⟩

set_option maxRecDepth 20000 in
/-- C3 counterexample: sanitize_filename is not idempotent.  On a
201-character title whose 200th character is a period, truncation to 200
leaves a trailing period (the post-truncation trim removes only
whitespace), and a second application strips it. -/
theorem C3_sanitize_not_idempotent :
    sanitize_filename (sanitize_filename cexTitle) ≠ sanitize_filename cexTitle := by
  decide

/-- C3 (amended): sanitize_filename is idempotent on every input whose
sanitized output does not end in a period; the truncation-to-200 pass is
the only step that can leave such a period behind. -/
theorem C3_sanitize_idempotent (s : String)
    (h : (sanitize_filename s).data.getLast? ≠ some '.') :
    sanitize_filename (sanitize_filename s) = sanitize_filename s := by
  unfold sanitize_filename
  exact congrArg String.mk (sanitizeL_idem h)

/-- C3 witness: an ordinary title satisfies the no-trailing-period
hypothesis and is a fixed point of a second sanitization. -/
theorem C3_sanitize_idempotent_witness :
    (sanitize_filename "My Video: part 1").data.getLast? ≠ some '.' ∧
    sanitize_filename (sanitize_filename "My Video: part 1") =
      sanitize_filename "My Video: part 1" :=
  ⟨by decide, C3_sanitize_idempotent "My Video: part 1" (by decide)⟩

/-- C4: for any deployment base directory of at most 229 characters and any
raw title (of any length), the output template built by download_video —
after the 150-character cap and the secondary shortening pass — never
exceeds 250 characters once the height and extension placeholders are
substituted with their representative values 1080 and mp4. -/
theorem C4_output_path_bounded (dir rawTitle : List Char) (audioOnly : Bool)
    (hdir : dir.length ≤ 229) :
    (substRepr (finalOutTmpl dir rawTitle audioOnly)).length ≤ 250 :=
  finalOutTmpl_le_250 dir rawTitle audioOnly hdir

/-- C4 witness: a realistic download directory with a 10000-character
title stays within the 250-character bound. -/
theorem C4_output_path_bounded_witness :
    ("/app/downloads" : String).data.length ≤ 229 ∧
    (substRepr (finalOutTmpl ("/app/downloads" : String).data
      (List.replicate 10000 'a') false)).length ≤ 250 :=
  ⟨by decide, C4_output_path_bounded _ _ false (by decide)⟩

/-- C5 counterexample: a progress event reporting 200 downloaded bytes of a
100-byte total stores percent 200, outside [0, 100]. -/
theorem C5_percent_out_of_range :
    (lookupJ (applyEvents [TrackEvent.hook overEvent]) (some "vid1")).map Job.percent
      = some 200 ∧ ¬((200 : ℚ) ≤ 100) := by
  constructor
  · show some (round1 (((200 : ℕ) : ℚ) / ((100 : ℕ) : ℚ) * 100)) = some 200
    have h1 : ((200 : ℕ) : ℚ) / ((100 : ℕ) : ℚ) * 100 = 200 := by norm_num
    rw [h1]
    unfold round1
    rw [show (10 : ℚ) * 200 = ((2000 : ℤ) : ℚ) by norm_num, round_intCast]
    norm_num
  · norm_num

/-- C5 (amended): every percent stored by Create, OnProgress or OnFinished
lies in [0, 100], for every write sequence in which each recorded
downloading event reports no more downloaded bytes than its positive
effective total. -/
theorem C5_percent_in_range (evs : List TrackEvent)
    (hok : ∀ e ∈ evs, okEvent e) :
    ∀ k j, lookupJ (applyEvents evs) k = some j →
      0 ≤ j.percent ∧ j.percent ≤ 100 := by
  have hempty : percentInv ([] : JobMap) := by
    intro k j hj
    simp [lookupJ] at hj
  exact foldl_percentInv hempty evs hok

/-- C5 witness: a single creation write satisfies the side condition and
every stored percent (the created record's 0) is in range. -/
theorem C5_percent_in_range_witness :
    (∀ e ∈ [TrackEvent.create (some "w")], okEvent e) ∧
    (0 : ℚ) ≤ (⟨"starting", 0, none, none⟩ : Job).percent ∧
    (⟨"starting", 0, none, none⟩ : Job).percent ≤ 100 := by
  have hok : ∀ e ∈ [TrackEvent.create (some "w")], okEvent e := by
    intro e he
    rw [List.mem_singleton.mp he]
    trivial
  refine ⟨hok, ?_⟩
  have hlk : lookupJ (applyEvents [TrackEvent.create (some "w")]) (some "w") =
      some ⟨"starting", 0, none, none⟩ := by decide
  exact C5_percent_in_range [TrackEvent.create (some "w")] hok (some "w")
    ⟨"starting", 0, none, none⟩ hlk

/-- C6: a downloading progress event updates the map only when the
effective total (total_bytes, else total_bytes_estimate, else 0) is
positive, in which case the job's entry becomes status "downloading" with
percent = downloaded/total*100 rounded to one decimal and the reported
speed and eta stored, leaving every other key unchanged; when the
effective total is zero the map is left entirely unchanged. -/
theorem C6_on_progress (m : JobMap) (d : HookInput)
    (hst : d.status = "downloading") :
    (0 < hookTotal d →
      lookupJ (progress_hook m d) (some (d.info_id.getD "unknown")) =
        some ⟨"downloading",
          round1 ((d.downloaded_bytes.getD 0 : ℚ) / (hookTotal d : ℚ) * 100),
          some (d.speed.getD 0), some (d.eta.getD 0)⟩ ∧
      (∀ k, k ≠ some (d.info_id.getD "unknown") →
        lookupJ (progress_hook m d) k = lookupJ m k)) ∧
    (hookTotal d = 0 → progress_hook m d = m) := by
  unfold progress_hook
  rw [if_pos hst]
  constructor
  · intro htot
    rw [if_pos htot]
    exact ⟨dictSet_lookup_self _ _ _, fun k hk => dictSet_lookup_ne _ _ _ hk⟩
  · intro htot
    rw [if_neg (by omega)]

/-- C6 witness: a concrete downloading event with total 100 stores the
expected record, and one with total 0 leaves the empty map unchanged. -/
theorem C6_on_progress_witness :
    lookupJ (progress_hook []
        ⟨"downloading", some "w", some 100, none, some 50, some 5, some 7⟩)
        (some "w") =
      some ⟨"downloading", round1 (((50 : ℕ) : ℚ) / ((100 : ℕ) : ℚ) * 100),
        some 5, some 7⟩ ∧
    progress_hook [] ⟨"downloading", some "w", some 0, none, some 50, none, none⟩
      = [] := by
  constructor
  · exact (C6_on_progress []
      ⟨"downloading", some "w", some 100, none, some 50, some 5, some 7⟩ rfl).1
      (by decide) |>.1
  · exact (C6_on_progress []
      ⟨"downloading", some "w", some 0, none, some 50, none, none⟩ rfl).2 rfl

/-- C7: download failures are classified as the code does — a provider
DownloadError whose message contains "Invalid argument" or "Errno 22" maps
to HTTP 400 with the retry-suggesting invalid-filename message, any other
DownloadError maps to 400 with the extraction-error message, an OSError
with errno 22 maps to 400 with its invalid-filename message, and a
successful fetch where no directory entry contains the first 30 characters
of the sanitized title
in the output directory maps to 500 with "Arquivo não encontrado após
download". -/
theorem C7_error_classification :
    (∀ (msg : String) (listing : List String) (title : String) (vid : Option String),
      (containsSub "Invalid argument" msg || containsSub "Errno 22" msg) = true →
      downloadResult (.dlError msg) listing title vid =
        ⟨400, .err "Erro ao salvar arquivo: nome do arquivo inválido. Tente novamente ou escolha outro vídeo."⟩) ∧
    (∀ (msg : String) (listing : List String) (title : String) (vid : Option String),
      (containsSub "Invalid argument" msg || containsSub "Errno 22" msg) = false →
      downloadResult (.dlError msg) listing title vid =
        ⟨400, .err ("Erro no download: " ++ msg)⟩) ∧
    (∀ (msg : String) (listing : List String) (title : String) (vid : Option String),
      downloadResult (.osError 22 msg) listing title vid =
        ⟨400, .err "Erro ao salvar arquivo: nome do arquivo contém caracteres inválidos. Tente novamente."⟩) ∧
    (∀ (listing : List String) (title : String) (vid : Option String),
      (∀ f ∈ listing, containsSub (String.mk (title.data.take 30)) f = false) →
      downloadResult .success listing title vid =
        ⟨500, .err "Arquivo não encontrado após download"⟩) := by
  refine ⟨?_, ?_, ?_, ?_⟩
  · intro msg listing title vid hsub
    simp only [downloadResult]
    rw [if_pos hsub]
  · intro msg listing title vid hsub
    simp only [downloadResult]
    rw [if_neg (by rw [hsub]; exact Bool.false_ne_true)]
  · intro msg listing title vid
    simp only [downloadResult]
    rw [if_pos trivial]
  · intro listing title vid hnone
    simp only [downloadResult]
    rw [List.find?_eq_none.mpr (fun f hf => by rw [hnone f hf]; exact Bool.false_ne_true)]

/-- C7 witness: one concrete response per classification branch. -/
theorem C7_error_classification_witness :
    downloadResult (.dlError "write: Invalid argument") [] "t" none =
      ⟨400, .err "Erro ao salvar arquivo: nome do arquivo inválido. Tente novamente ou escolha outro vídeo."⟩ ∧
    downloadResult (.dlError "HTTP 403") [] "t" none =
      ⟨400, .err ("Erro no download: " ++ "HTTP 403")⟩ ∧
    downloadResult (.osError 22 "bad name") [] "t" none =
      ⟨400, .err "Erro ao salvar arquivo: nome do arquivo contém caracteres inválidos. Tente novamente."⟩ ∧
    downloadResult .success ["other_file.mp4"] "My Title" none =
      ⟨500, .err "Arquivo não encontrado após download"⟩ := by
  refine ⟨?_, ?_, ?_, ?_⟩
  · exact C7_error_classification.1 "write: Invalid argument" [] "t" none (by decide)
  · exact C7_error_classification.2.1 "HTTP 403" [] "t" none (by decide)
  · exact C7_error_classification.2.2.1 "bad name" [] "t" none
  · exact C7_error_classification.2.2.2 ["other_file.mp4"] "My Title" none (by decide)

/-- C8: the /api/progress lookup on an id that is absent from the job map —
in particular one never created — returns the default record with status
"unknown" and percent 0; it is a total function of the map, so it can
neither raise nor block. -/
theorem C8_unknown_id (m : JobMap) (vid : String)
    (h : lookupJ m (some vid) = none) :
    get_progress m vid = defaultJob := by
  unfold get_progress
  rw [h]
  rfl

/-- C8 witness: looking up a never-created id in the empty map yields the
default record. -/
theorem C8_unknown_id_witness :
    lookupJ ([] : JobMap) (some "nope") = none ∧
    get_progress [] "nope" = defaultJob :=
  ⟨rfl, C8_unknown_id [] "nope" rfl⟩

/-- C9: a downloading event whose provider dict carries no media id is
stored under the literal key "unknown"; a progress lookup of "unknown"
then returns that real record (not the default), and a second id-less
event overwrites the same shared entry. -/
theorem C9_unknown_key_shared :
    ∀ (m : JobMap) (d1 d2 : HookInput),
      d1.status = "downloading" → d1.info_id = none → 0 < hookTotal d1 →
      d2.status = "downloading" → d2.info_id = none → 0 < hookTotal d2 →
      lookupJ (progress_hook m d1) (some "unknown") = some (hookJob d1) ∧
      get_progress (progress_hook m d1) "unknown" = hookJob d1 ∧
      hookJob d1 ≠ defaultJob ∧
      lookupJ (progress_hook (progress_hook m d1) d2) (some "unknown") =
        some (hookJob d2) := by
  intro m d1 d2 hst1 hid1 ht1 hst2 hid2 ht2
  have hs1 : progress_hook m d1 = dictSet m (some "unknown") (hookJob d1) := by
    unfold progress_hook
    rw [if_pos hst1, if_pos ht1, hid1]
    rfl
  have hs2 : progress_hook (progress_hook m d1) d2 =
      dictSet (progress_hook m d1) (some "unknown") (hookJob d2) := by
    unfold progress_hook
    rw [if_pos hst2, if_pos ht2, hid2]
    rfl
  refine ⟨?_, ?_, ?_, ?_⟩
  · rw [hs1]; exact dictSet_lookup_self _ _ _
  · unfold get_progress
    rw [hs1, dictSet_lookup_self]
    rfl
  · intro hcontra
    have := congrArg Job.status hcontra
    simp [hookJob, defaultJob] at this
  · rw [hs2]; exact dictSet_lookup_self _ _ _

/-- C9 witness: two concrete id-less downloading events share the
"unknown" entry, and the progress route returns the stored record. -/
theorem C9_unknown_key_shared_witness :
    lookupJ (progress_hook []
        ⟨"downloading", none, some 100, none, some 10, none, none⟩)
        (some "unknown") =
      some (hookJob ⟨"downloading", none, some 100, none, some 10, none, none⟩) ∧
    lookupJ (progress_hook (progress_hook []
        ⟨"downloading", none, some 100, none, some 10, none, none⟩)
        ⟨"downloading", none, some 100, none, some 40, none, none⟩)
        (some "unknown") =
      some (hookJob ⟨"downloading", none, some 100, none, some 40, none, none⟩) := by
  have h := C9_unknown_key_shared []
    ⟨"downloading", none, some 100, none, some 10, none, none⟩
    ⟨"downloading", none, some 100, none, some 40, none, none⟩
    rfl rfl (by decide) rfl rfl (by decide)
  exact ⟨h.1, h.2.2.2⟩
